import Mathlib

/-!
Verification of the committor routines of `Mixtape/tpt/committor.py`.

The two Python functions `committors` and `conditional_committors` are
embedded shallowly over exact rational arithmetic:

* a `MarkovStateModel` carries the fields the routines read
  (`n_states_` is the type-level parameter `n`, `transmat_` is the
  transition matrix);
* the sequence of in-place numpy updates that builds the boundary-modified
  system `lhs · q = rhs` is embedded as explicit matrix/vector update
  functions folded over the source and sink index lists, in the order the
  Python loops run;
* the dense solves (`np.linalg.solve`, `np.linalg.inv`) are modelled
  relationally: theorems quantify over a vector `q` with
  `lhs.mulVec q = rhs` (what a successful solve returns) and over a matrix
  `Nmat` with `Nmat * (1 - P) = 1` (what a successful inversion returns);
* numpy integer indexing (negative-index wrap-around, `IndexError` outside
  `[-n, n)`) is embedded by `resolveIndex`.
-/

namespace Mixtape

/-- The part of a `mixtape.MarkovStateModel` read by the committor code:
`n_states_` (the type-level parameter `n`) and the row-stochastic
transition matrix `transmat_`.  Entries are modelled as exact rationals. -/
structure MarkovStateModel (n : ℕ) where
  transmat_ : Matrix (Fin n) (Fin n) ℚ

variable {n : ℕ}

/-- Embedding of the numpy statement `lhs[a, :] = 0.0`. -/
def zeroRow (M : Matrix (Fin n) (Fin n) ℚ) (a : Fin n) : Matrix (Fin n) (Fin n) ℚ :=
  Matrix.of fun i j => if i = a then 0 else M i j

/-- Embedding of the numpy statement `lhs[:, a] = 0.0`. -/
def zeroCol (M : Matrix (Fin n) (Fin n) ℚ) (a : Fin n) : Matrix (Fin n) (Fin n) ℚ :=
  Matrix.of fun i j => if j = a then 0 else M i j

/-- Embedding of the numpy statement `lhs[a, a] = 1.0`. -/
def setDiagOne (M : Matrix (Fin n) (Fin n) ℚ) (a : Fin n) : Matrix (Fin n) (Fin n) ℚ :=
  Matrix.of fun i j => if i = a ∧ j = a then 1 else M i j

/-- One iteration of the boundary loops in `committors`: zero row `a`,
zero column `a`, set the diagonal entry to one. -/
def pinState (M : Matrix (Fin n) (Fin n) ℚ) (a : Fin n) : Matrix (Fin n) (Fin n) ℚ :=
  setDiagOne (zeroCol (zeroRow M a) a) a

/-- The `for a in sources` / `for b in sinks` loops of `committors`,
run left to right over the index list. -/
def pinStates (M : Matrix (Fin n) (Fin n) ℚ) (l : List (Fin n)) : Matrix (Fin n) (Fin n) ℚ :=
  l.foldl pinState M

/-- The coefficient matrix built by `committors`: start from
`np.eye(n_states) - tprob`, then run the source loop and the sink loop. -/
def committorsLhs (msm : MarkovStateModel n) (sources sinks : List (Fin n)) :
    Matrix (Fin n) (Fin n) ℚ :=
  pinStates (pinStates (1 - msm.transmat_) sources) sinks

/-- Embedding of `ident_sinks`: the zero vector with
`ident_sinks[sinks] = 1.0`. -/
def identSinks (sinks : List (Fin n)) : Fin n → ℚ :=
  fun i => if i ∈ sinks then 1 else 0

/-- Embedding of a fancy-indexed assignment `v[idxs] = c` on a vector. -/
def setEntries (v : Fin n → ℚ) (idxs : List (Fin n)) (c : ℚ) : Fin n → ℚ :=
  fun i => if i ∈ idxs then c else v i

/-- The right-hand side built by `committors`:
`rhs = np.dot(tprob, ident_sinks)`, then `rhs[sources] = 0.0`,
then `rhs[sinks] = 1.0`. -/
def committorsRhs (msm : MarkovStateModel n) (sources sinks : List (Fin n)) :
    Fin n → ℚ :=
  setEntries (setEntries (msm.transmat_.mulVec (identSinks sinks)) sources 0) sinks 1

lemma pinState_apply (M : Matrix (Fin n) (Fin n) ℚ) (a i j : Fin n) :
    pinState M a i j =
      if i = a then (if j = a then 1 else 0)
      else if j = a then 0 else M i j := by
  by_cases hia : i = a <;> by_cases hja : j = a <;>
    simp [pinState, setDiagOne, zeroCol, zeroRow, hia, hja]

/-- Pointwise value of the boundary loops: rows of pinned states become
unit rows, pinned columns are zeroed elsewhere, the rest is untouched. -/
lemma pinStates_apply (l : List (Fin n)) :
    ∀ (M : Matrix (Fin n) (Fin n) ℚ) (i j : Fin n),
      pinStates M l i j =
        if i ∈ l then (if j = i then 1 else 0)
        else if j ∈ l then 0 else M i j := by
  induction l with
  | nil => intro M i j; simp [pinStates]
  | cons a t ih =>
    intro M i j
    have hstep : pinStates M (a :: t) = pinStates (pinState M a) t := by
      simp [pinStates]
    rw [hstep, ih]
    by_cases hil : i ∈ t
    · simp [hil, List.mem_cons]
    · by_cases hia : i = a
      · subst hia
        by_cases hjt : j ∈ t
        · have hji : j ≠ i := fun h => hil (h ▸ hjt)
          simp [hil, hjt, List.mem_cons, hji]
        · simp [hil, hjt, List.mem_cons, pinState_apply]
      · have hmem : i ∉ a :: t := by simp [List.mem_cons, hia, hil]
        by_cases hjt : j ∈ t
        · simp [hil, hjt, hmem, List.mem_cons]
        · by_cases hja : j = a
          · simp only [hil, hjt, hmem, List.mem_cons, hja, pinState_apply,
              if_false, ite_false]
            simp [hia]
          · simp [hil, hjt, hmem, List.mem_cons, hja, pinState_apply, hia]

/-- Pointwise value of the full coefficient matrix built by `committors`. -/
lemma committorsLhs_apply (msm : MarkovStateModel n) (sources sinks : List (Fin n))
    (i j : Fin n) :
    committorsLhs msm sources sinks i j =
      if i ∈ sinks then (if j = i then 1 else 0)
      else if j ∈ sinks then 0
      else if i ∈ sources then (if j = i then 1 else 0)
      else if j ∈ sources then 0
      else (1 - msm.transmat_) i j := by
  rw [committorsLhs, pinStates_apply, pinStates_apply]

lemma committorsRhs_apply (msm : MarkovStateModel n) (sources sinks : List (Fin n))
    (i : Fin n) :
    committorsRhs msm sources sinks i =
      if i ∈ sinks then 1
      else if i ∈ sources then 0
      else msm.transmat_.mulVec (identSinks sinks) i := by
  simp [committorsRhs, setEntries]

/-- For a state whose row has been pinned to a unit row (any sink, or any
source not zeroed again by the sink column pass), the product row · q is
just the entry of q at that state. -/
lemma mulVec_pinned_row (msm : MarkovStateModel n) (sources sinks : List (Fin n))
    (q : Fin n → ℚ) (a : Fin n) (ha : a ∈ sinks ∨ (a ∈ sources ∧ a ∉ sinks)) :
    (committorsLhs msm sources sinks).mulVec q a = q a := by
  have hrow : ∀ j, committorsLhs msm sources sinks a j * q j =
      if j = a then q j else 0 := by
    intro j
    rw [committorsLhs_apply]
    rcases ha with hsnk | ⟨hsrc, hnot⟩
    · by_cases hja : j = a <;> simp [hsnk, hja]
    · by_cases hja : j = a
      · subst hja; simp [hnot, hsrc]
      · by_cases hjs : j ∈ sinks <;> simp [hnot, hja, hjs, hsrc]
  unfold Matrix.mulVec Matrix.dotProduct
  rw [Finset.sum_congr rfl fun j _ => hrow j]
  simp

/-- Coefficient matrix as described by spec section 4.1, rendered
declaratively: starting from `L = I - T`, each source or sink index gets
its row and column zeroed and its diagonal entry set to one, so in the end
a boundary row is a unit row, a boundary column is zero outside boundary
rows, and all other entries keep their `I - T` value. -/
def specLhs (msm : MarkovStateModel n) (sources sinks : List (Fin n)) :
    Matrix (Fin n) (Fin n) ℚ :=
  Matrix.of fun i j =>
    if i ∈ sources ∨ i ∈ sinks then (if j = i then 1 else 0)
    else if j ∈ sources ∨ j ∈ sinks then 0
    else (1 - msm.transmat_) i j

/-- Right-hand side as described by spec section 4.1: `r = T · 1_sinks`,
then `r[a] = 0` for sources (step 2), then `r[b] = 1` for sinks (step 3). -/
def specRhs (msm : MarkovStateModel n) (sources sinks : List (Fin n)) :
    Fin n → ℚ :=
  fun i =>
    if i ∈ sinks then 1
    else if i ∈ sources then 0
    else msm.transmat_.mulVec (identSinks sinks) i

/-- The 3-state gambler's-ruin chain of the spec's first test scenario:
state 0 absorbing, state 2 absorbing, state 1 with row `[0.4, 0.2, 0.4]`. -/
def msm3 : MarkovStateModel 3 :=
  ⟨!![1, 0, 0; 2/5, 1/5, 2/5; 0, 0, 1]⟩

/-- Degenerate 1-state chain used to exercise overlapping source/sink sets. -/
def msm1 : MarkovStateModel 1 :=
  ⟨!![1]⟩

/-- 2-state identity chain used to exercise index handling. -/
def msm2 : MarkovStateModel 2 :=
  ⟨!![1, 0; 0, 1]⟩

/-- C1 (amended).  Any vector `q` returned by a successful solve of the
boundary-modified system satisfies `q[b] = 1` exactly for every sink `b`,
and `q[a] = 0` exactly for every source `a` that is not also listed as a
sink; a state listed in both gets the sink value `1` (see C10), which is
what forces the amendment. -/
theorem committors_boundary_values (msm : MarkovStateModel n)
    (sources sinks : List (Fin n)) (q : Fin n → ℚ)
    (hq : (committorsLhs msm sources sinks).mulVec q = committorsRhs msm sources sinks) :
    (∀ a ∈ sources, a ∉ sinks → q a = 0) ∧ (∀ b ∈ sinks, q b = 1) := by
  constructor
  · intro a ha hnot
    have h := congrFun hq a
    rw [mulVec_pinned_row msm sources sinks q a (Or.inr ⟨ha, hnot⟩)] at h
    rw [committorsRhs_apply] at h
    simpa [hnot, ha] using h
  · intro b hb
    have h := congrFun hq b
    rw [mulVec_pinned_row msm sources sinks q b (Or.inl hb)] at h
    rw [committorsRhs_apply] at h
    simpa [hb] using h

/-- Witness for C1 (amended) on the spec's 3-state scenario. -/
theorem committors_boundary_values_witness :
    (committorsLhs msm3 [0] [2]).mulVec ![0, 1/2, 1] = committorsRhs msm3 [0] [2] ∧
    (![0, 1/2, 1] : Fin 3 → ℚ) 0 = 0 ∧ (![0, 1/2, 1] : Fin 3 → ℚ) 2 = 1 := by
  refine ⟨by with_unfolding_all decide, ?_, ?_⟩
  · exact (committors_boundary_values msm3 [0] [2] ![0, 1/2, 1]
      (by with_unfolding_all decide)).1 0 (by decide) (by decide)
  · exact (committors_boundary_values msm3 [0] [2] ![0, 1/2, 1]
      (by with_unfolding_all decide)).2 2 (by decide)

/-- Counterexample to C1 as frozen: on the 1-state chain with
`sources = sinks = [0]` the boundary-modified matrix is the identity (its
own inverse, so the solve succeeds), the unique solution is `q = [1]`, and
the source index `0` has `q[0] = 1 ≠ 0`. -/
theorem committors_source_zero_cex :
    (0 : Fin 1) ∈ [(0 : Fin 1)] ∧
    committorsLhs msm1 [0] [0] * committorsLhs msm1 [0] [0] = 1 ∧
    (committorsLhs msm1 [0] [0]).mulVec ![1] = committorsRhs msm1 [0] [0] ∧
    ¬ ((![1] : Fin 1 → ℚ) 0 = 0) := by
  exact ⟨by decide, by with_unfolding_all decide, by with_unfolding_all decide,
    by with_unfolding_all decide⟩

/-- C2.  The system built by `committors` is exactly the system described
by spec section 4.1: the sequentially built coefficient matrix equals the
spec's boundary-modified `I - T`, the right-hand side equals the spec's
overridden `T · 1_sinks`, and hence a vector solves the code's system iff
it solves the spec's system (`committors` returns the exact solution of
that system). -/
theorem committors_system_matches_spec (msm : MarkovStateModel n)
    (sources sinks : List (Fin n)) :
    committorsLhs msm sources sinks = specLhs msm sources sinks ∧
    committorsRhs msm sources sinks = specRhs msm sources sinks ∧
    ∀ q : Fin n → ℚ,
      (committorsLhs msm sources sinks).mulVec q = committorsRhs msm sources sinks ↔
      (specLhs msm sources sinks).mulVec q = specRhs msm sources sinks := by
  have hL : committorsLhs msm sources sinks = specLhs msm sources sinks := by
    funext i j
    rw [committorsLhs_apply]
    show _ = if i ∈ sources ∨ i ∈ sinks then (if j = i then 1 else 0)
      else if j ∈ sources ∨ j ∈ sinks then 0 else (1 - msm.transmat_) i j
    by_cases hisnk : i ∈ sinks
    · simp [hisnk]
    · by_cases hisrc : i ∈ sources
      · by_cases hjsnk : j ∈ sinks
        · have hji : j ≠ i := fun h => hisnk (h ▸ hjsnk)
          simp [hisnk, hisrc, hjsnk, hji]
        · simp [hisnk, hisrc, hjsnk]
      · by_cases hjsnk : j ∈ sinks <;> by_cases hjsrc : j ∈ sources <;>
          simp [hisnk, hisrc, hjsnk, hjsrc]
  have hr : committorsRhs msm sources sinks = specRhs msm sources sinks := by
    funext i
    rw [committorsRhs_apply]
    rfl
  exact ⟨hL, hr, fun q => by rw [hL, hr]⟩

/-- C9.  On the spec's 3-state gambler's-ruin scenario with
`sources = [0]`, `sinks = [2]`, the unique vector returned by the solve is
exactly `q = [0, 1/2, 1]`. -/
theorem committors_gambler_scenario (q : Fin 3 → ℚ)
    (hq : (committorsLhs msm3 [0] [2]).mulVec q = committorsRhs msm3 [0] [2]) :
    q = ![0, 1/2, 1] := by
  have hL : committorsLhs msm3 [0] [2] = !![1, 0, 0; 0, 4/5, 0; 0, 0, 1] := by
    with_unfolding_all decide
  have hr : committorsRhs msm3 [0] [2] = ![0, 2/5, 1] := by
    with_unfolding_all decide
  rw [hL, hr] at hq
  have h0 := congrFun hq 0
  have h1 := congrFun hq 1
  have h2 := congrFun hq 2
  simp [Matrix.mulVec, Matrix.dotProduct, Fin.sum_univ_three] at h0 h1 h2
  funext i
  fin_cases i
  · simpa using h0
  · show q 1 = 1/2
    have : (4/5 : ℚ) * q 1 = 2/5 := h1
    linarith
  · simpa using h2

/-- Witness for C9: `q = [0, 1/2, 1]` does solve the system, and the
theorem then evaluates it to itself. -/
theorem committors_gambler_scenario_witness :
    (committorsLhs msm3 [0] [2]).mulVec ![0, 1/2, 1] = committorsRhs msm3 [0] [2] ∧
    (![0, 1/2, 1] : Fin 3 → ℚ) = ![0, 1/2, 1] := by
  refine ⟨by with_unfolding_all decide, ?_⟩
  exact committors_gambler_scenario ![0, 1/2, 1] (by with_unfolding_all decide)

/-- Error outcomes of the two routines.  `invalidArgument` stands for the
`ValueError` raised by `conditional_committors` (the spec calls it
`InvalidArgumentError`); `indexError` stands for the `IndexError` numpy
raises when an integer index falls outside `[-n_states, n_states)`. -/
inductive CommittorError where
  | invalidArgument : CommittorError
  | indexError : CommittorError
deriving DecidableEq, Repr

/-- Numpy semantics of a single integer index into an axis of length `n`:
an index in `[0, n)` is used as is, an index in `[-n, 0)` wraps around to
`n + i`, anything else raises `IndexError` (modelled as `none`). -/
def resolveIndex (n : ℕ) (i : ℤ) : Option (Fin n) :=
  if h : 0 ≤ i ∧ i < n then some ⟨i.toNat, by omega⟩
  else if h2 : -(n : ℤ) ≤ i ∧ i < 0 then some ⟨(i + n).toNat, by omega⟩
  else none

/-- Resolution of a whole index list, failing on the first index numpy
would reject, as the `for a in sources` loop does. -/
def resolveAll (n : ℕ) : List ℤ → Option (List (Fin n))
  | [] => some []
  | i :: rest =>
    match resolveIndex n i, resolveAll n rest with
    | some j, some js => some (j :: js)
    | _, _ => none

/-- `committors` on raw integer index lists: numpy either raises
`IndexError` while the boundary loops index into `lhs`, or every index
resolves (negative ones wrapping) and the boundary-modified system is
built; the dense solve itself is modelled relationally on the returned
system. -/
def committorsZ (msm : MarkovStateModel n) (sources sinks : List ℤ) :
    Except CommittorError (Matrix (Fin n) (Fin n) ℚ × (Fin n → ℚ)) :=
  match resolveAll n sources, resolveAll n sinks with
  | some src, some snk => .ok (committorsLhs msm src snk, committorsRhs msm src snk)
  | _, _ => .error .indexError

lemma resolveIndex_coe (a : Fin n) : resolveIndex n (a.val : ℤ) = some a := by
  have h : (0 : ℤ) ≤ (a.val : ℤ) ∧ (a.val : ℤ) < n := ⟨Int.ofNat_nonneg _, by
    exact_mod_cast a.isLt⟩
  rw [resolveIndex, dif_pos h]
  congr 1

lemma resolveAll_coe (l : List (Fin n)) :
    resolveAll n (l.map fun a => (a.val : ℤ)) = some l := by
  induction l with
  | nil => rfl
  | cons a t ih =>
    show resolveAll n ((a.val : ℤ) :: t.map fun a => (a.val : ℤ)) = some (a :: t)
    rw [resolveAll, resolveIndex_coe, ih]

lemma resolveAll_of_forall_some (l : List ℤ)
    (h : ∀ i ∈ l, ∃ j : Fin n, resolveIndex n i = some j) :
    ∃ l' : List (Fin n), resolveAll n l = some l' := by
  induction l with
  | nil => exact ⟨[], rfl⟩
  | cons a t ih =>
    obtain ⟨j, hj⟩ := h a (List.mem_cons_self a t)
    obtain ⟨t', ht⟩ := ih fun i hi => h i (List.mem_cons_of_mem a hi)
    exact ⟨j :: t', by rw [resolveAll, hj, ht]⟩

lemma resolveAll_of_mem_none (l : List ℤ) (i : ℤ) (hi : i ∈ l)
    (h : resolveIndex n i = none) : resolveAll n l = (none : Option (List (Fin n))) := by
  induction l with
  | nil => cases hi
  | cons a t ih =>
    rcases List.mem_cons.mp hi with rfl | hmem
    · rw [resolveAll, h]
    · rcases hr : resolveIndex n a with _ | j
      · rw [resolveAll, hr]
      · rw [resolveAll, hr, ih hmem]

/-- C4 (amended).  `committors` performs no explicit range validation and
raises no `OutOfRangeError`.  What the indexing layer does instead: an
integer index in `[-n, n)` always resolves (a negative one silently wraps
to `n + i`), an index outside `[-n, n)` makes the array indexing itself
raise `IndexError`; consequently the call builds and solves the system
whenever every supplied index lies in `[-n, n)`, and aborts with
`IndexError` (not `OutOfRangeError`, and before any solve) exactly when
some index lies outside `[-n, n)`. -/
theorem committors_index_handling (msm : MarkovStateModel n)
    (sources sinks : List ℤ) :
    (∀ i : ℤ, -(n : ℤ) ≤ i → i < n →
      ∃ j : Fin n, resolveIndex n i = some j ∧
        (j : ℤ) = (if i < 0 then i + n else i)) ∧
    (∀ i : ℤ, (i < -(n : ℤ) ∨ (n : ℤ) ≤ i) → resolveIndex n i = none) ∧
    ((∀ i ∈ sources ++ sinks, -(n : ℤ) ≤ i ∧ i < n) →
      ∃ src snk : List (Fin n),
        resolveAll n sources = some src ∧ resolveAll n sinks = some snk ∧
        committorsZ msm sources sinks =
          .ok (committorsLhs msm src snk, committorsRhs msm src snk)) ∧
    ((∃ i ∈ sources ++ sinks, i < -(n : ℤ) ∨ (n : ℤ) ≤ i) →
      committorsZ msm sources sinks = .error .indexError) := by
  have hres : ∀ i : ℤ, -(n : ℤ) ≤ i → i < n →
      ∃ j : Fin n, resolveIndex n i = some j ∧
        (j : ℤ) = (if i < 0 then i + n else i) := by
    intro i hlo hhi
    by_cases hneg : i < 0
    · have h1 : ¬ (0 ≤ i ∧ i < (n : ℤ)) := by omega
      have h2 : -(n : ℤ) ≤ i ∧ i < 0 := ⟨hlo, hneg⟩
      refine ⟨⟨(i + n).toNat, by omega⟩, ?_, ?_⟩
      · simp [resolveIndex, h1, h2]
      · simp [hneg]
        omega
    · have h1 : 0 ≤ i ∧ i < (n : ℤ) := by omega
      refine ⟨⟨i.toNat, by omega⟩, ?_, ?_⟩
      · simp [resolveIndex, h1]
      · simp [hneg]
        omega
  have hnone : ∀ i : ℤ, (i < -(n : ℤ) ∨ (n : ℤ) ≤ i) → resolveIndex n i = none := by
    intro i hi
    have h1 : ¬ (0 ≤ i ∧ i < (n : ℤ)) := by omega
    have h2 : ¬ (-(n : ℤ) ≤ i ∧ i < 0) := by omega
    simp [resolveIndex, h1, h2]
  refine ⟨hres, hnone, ?_, ?_⟩
  · intro hall
    obtain ⟨src, hsrc⟩ := resolveAll_of_forall_some sources fun i hi => by
      obtain ⟨j, hj, _⟩ := hres i (hall i (List.mem_append_left _ hi)).1
        (hall i (List.mem_append_left _ hi)).2
      exact ⟨j, hj⟩
    obtain ⟨snk, hsnk⟩ := resolveAll_of_forall_some sinks fun i hi => by
      obtain ⟨j, hj, _⟩ := hres i (hall i (List.mem_append_right _ hi)).1
        (hall i (List.mem_append_right _ hi)).2
      exact ⟨j, hj⟩
    exact ⟨src, snk, hsrc, hsnk, by simp [committorsZ, hsrc, hsnk]⟩
  · rintro ⟨i, hi, hout⟩
    unfold committorsZ
    rcases List.mem_append.mp hi with hmem | hmem
    · rw [resolveAll_of_mem_none sources i hmem (hnone i hout)]
    · rw [resolveAll_of_mem_none sinks i hmem (hnone i hout)]
      rcases resolveAll n sources with _ | src <;> rfl

/-- Witness for C4 (amended) on the 2-state identity chain: the wrapped
index `-1` resolves to state `1` and the call succeeds, the index `2`
is out of band and the call aborts with `IndexError`. -/
theorem committors_index_handling_witness :
    (∃ j : Fin 2, resolveIndex 2 (-1) = some j ∧
      (j : ℤ) = (if (-1 : ℤ) < 0 then -1 + 2 else -1)) ∧
    resolveIndex 2 2 = none ∧
    (∃ src snk : List (Fin 2),
      resolveAll 2 [(-1 : ℤ)] = some src ∧ resolveAll 2 [(0 : ℤ)] = some snk ∧
      committorsZ msm2 [(-1 : ℤ)] [(0 : ℤ)] =
        .ok (committorsLhs msm2 src snk, committorsRhs msm2 src snk)) ∧
    committorsZ msm2 [(2 : ℤ)] [(0 : ℤ)] = .error .indexError := by
  refine ⟨?_, ?_, ?_, ?_⟩
  · exact (committors_index_handling msm2 [(-1 : ℤ)] [(0 : ℤ)]).1 (-1)
      (by decide) (by decide)
  · exact (committors_index_handling msm2 [(-1 : ℤ)] [(0 : ℤ)]).2.1 2
      (Or.inr (by decide))
  · exact (committors_index_handling msm2 [(-1 : ℤ)] [(0 : ℤ)]).2.2.1
      (by decide)
  · exact (committors_index_handling msm2 [(2 : ℤ)] [(0 : ℤ)]).2.2.2
      ⟨2, by decide, Or.inr (by decide)⟩

/-- Counterexample to C4 as frozen: with `sources = [-1]` on a 2-state
chain the supplied index lies outside `[0, n_states)`, yet the call is not
rejected - numpy wraps `-1` to state `1`, the system is built, and
`q = [1, 0]` solves it. -/
theorem committors_no_range_rejection_cex :
    ((-1 : ℤ) < 0 ∨ (2 : ℤ) ≤ -1) ∧
    committorsZ msm2 [(-1 : ℤ)] [(0 : ℤ)] =
      .ok (committorsLhs msm2 [1] [0], committorsRhs msm2 [1] [0]) ∧
    (committorsLhs msm2 [1] [0]).mulVec ![1, 0] = committorsRhs msm2 [1] [0] := by
  refine ⟨Or.inl (by decide), ?_, by with_unfolding_all decide⟩
  have h1 : resolveAll 2 [(-1 : ℤ)] = some [1] := by
    simp [resolveAll, resolveIndex]
  have h0 : resolveAll 2 [(0 : ℤ)] = some [0] := by
    simp [resolveAll, resolveIndex]
  unfold committorsZ
  rw [h1, h0]

/-- C10.  `committors` performs no disjointness validation: with a state
`i` listed among both sources and sinks the call succeeds (no error at
the integer level), and because the sink loop and the sink override of
the right-hand side run after the source ones, any returned solution has
`q[i] = 1` - the sink assignment wins. -/
theorem committors_overlap_sink_wins (msm : MarkovStateModel n)
    (sources sinks : List (Fin n)) (i : Fin n) (q : Fin n → ℚ)
    (hsrc : i ∈ sources) (hsnk : i ∈ sinks)
    (hq : (committorsLhs msm sources sinks).mulVec q = committorsRhs msm sources sinks) :
    committorsZ msm (sources.map fun a => (a.val : ℤ)) (sinks.map fun a => (a.val : ℤ)) =
      .ok (committorsLhs msm sources sinks, committorsRhs msm sources sinks) ∧
    q i = 1 := by
  constructor
  · unfold committorsZ
    rw [resolveAll_coe, resolveAll_coe]
  · exact (committors_boundary_values msm sources sinks q hq).2 i hsnk

/-- Witness for C10 on the 3-state chain with `sources = [0]`,
`sinks = [0, 2]`: state 0 is in both lists, the call succeeds, and the
solution value at 0 is 1. -/
theorem committors_overlap_sink_wins_witness :
    (0 : Fin 3) ∈ [(0 : Fin 3)] ∧ (0 : Fin 3) ∈ [(0 : Fin 3), 2] ∧
    (committorsLhs msm3 [0] [0, 2]).mulVec ![1, 1, 1] = committorsRhs msm3 [0] [0, 2] ∧
    (committorsZ msm3 ([(0 : Fin 3)].map fun a => (a.val : ℤ))
        (([(0 : Fin 3), 2]).map fun a => (a.val : ℤ)) =
      .ok (committorsLhs msm3 [0] [0, 2], committorsRhs msm3 [0] [0, 2]) ∧
    (![1, 1, 1] : Fin 3 → ℚ) 0 = 1) := by
  refine ⟨by decide, by decide, by with_unfolding_all decide, ?_⟩
  exact committors_overlap_sink_wins msm3 [0] [0, 2] 0 ![1, 1, 1]
    (by decide) (by decide) (by with_unfolding_all decide)

/-- The transient part of the permutation built by
`conditional_committors`: all states not in
`Bsink_indices = [source, sink, waypoint]`, in their original order
(the list comprehension over `xrange(n_states)`). -/
def transientList (s k w : Fin n) : List (Fin n) :=
  (List.finRange n).filter fun i => decide (i ∉ [s, k, w])

/-- The full permutation `perm = concatenate([perm, Bsink_indices])`:
transient states first, then `[source, sink, waypoint]` with the waypoint
last. -/
def permList (s k w : Fin n) : List (Fin n) :=
  transientList s k w ++ [s, k, w]

/-- Entry `(p, q)` of `permuted_tprob = tprob[perm, :][:, perm]`; the
positions are naturals, read through the permutation list (the default
value of `getD` is never reached for positions below `n`). -/
def permutedT (msm : MarkovStateModel n) (s k w : Fin n) (p q : ℕ) : ℚ :=
  msm.transmat_ ((permList s k w).getD p s) ((permList s k w).getD q s)

/-- The transient-to-transient block `P = permuted_tprob[:n, :n]` with
`n = n_states - len(Bsink_indices)`. -/
def Pblock (msm : MarkovStateModel n) (s k w : Fin n) :
    Matrix (Fin (n - 3)) (Fin (n - 3)) ℚ :=
  Matrix.of fun p q => permutedT msm s k w p q

/-- The transient-to-boundary block `R = permuted_tprob[:n, n:]`. -/
def Rblock (msm : MarkovStateModel n) (s k w : Fin n) :
    Matrix (Fin (n - 3)) (Fin 3) ℚ :=
  Matrix.of fun p j => permutedT msm s k w p (n - 3 + j)

/-- The absorption matrix `B = np.dot(np.linalg.inv(np.eye(n) - P), R)`.
The inversion is modelled relationally: `Nmat` stands for the matrix
returned by `np.linalg.inv(np.eye(n) - P)`, and theorems about the result
carry the hypothesis `Nmat * (1 - Pblock ...) = 1`. -/
def Bblock (msm : MarkovStateModel n) (s k w : Fin n)
    (Nmat : Matrix (Fin (n - 3)) (Fin (n - 3)) ℚ) :
    Matrix (Fin (n - 3)) (Fin 3) ℚ :=
  Nmat * Rblock msm s k w

/-- The vector `b = np.append(B[:, -1].flatten(), [0.0, 0.0, 1.0])`,
indexed by permuted position: the waypoint column of `B` on transient
positions, then `0, 0, 1` at positions `n-3`, `n-2`, `n-1` for
`[source, sink, waypoint]`.  Positions at `n` or beyond do not occur. -/
def bVal (msm : MarkovStateModel n) (s k w : Fin n)
    (Nmat : Matrix (Fin (n - 3)) (Fin (n - 3)) ℚ) (p : ℕ) : ℚ :=
  if h : p < n - 3 then Bblock msm s k w Nmat ⟨p, h⟩ 2
  else if p = n - 3 then 0
  else if p = n - 3 + 1 then 0
  else if p = n - 3 + 2 then 1
  else 0

/-- Position of `x` in a list: embedding of indexing a permuted vector by
`np.argsort(perm)`, which sends original state `x` to its position in
`perm`. -/
def posOf {α : Type} [DecidableEq α] (x : α) : List α → ℕ
  | [] => 0
  | a :: l => if a = x then 0 else posOf x l + 1

/-- The vector `cond_committors = (b * forward_committors[waypoint])[np.argsort(perm)]`
returned (in original state order) by a successful `conditional_committors`
call.  `qfwd` stands for the vector returned by the internal
`committors([source], [sink], msm)` solve. -/
def conditionalCommittorsVec (msm : MarkovStateModel n) (s k w : Fin n)
    (qfwd : Fin n → ℚ) (Nmat : Matrix (Fin (n - 3)) (Fin (n - 3)) ℚ) :
    Fin n → ℚ :=
  fun i => bVal msm s k w Nmat (posOf i (permList s k w)) * qfwd w

/-- `conditional_committors(source, sink, waypoint, msm)`: after the
integer typecheck, the distinctness guard raises `ValueError`
(`InvalidArgumentError` in the spec's taxonomy) before any linear algebra
runs; otherwise the permuted-block computation produces the vector above.
The two dense solves are modelled by the oracle arguments `qfwd` and
`Nmat` (see `Bblock` and `conditionalCommittorsVec`). -/
def conditionalCommittors (msm : MarkovStateModel n) (s k w : Fin n)
    (qfwd : Fin n → ℚ) (Nmat : Matrix (Fin (n - 3)) (Fin (n - 3)) ℚ) :
    Except CommittorError (Fin n → ℚ) :=
  if s = w ∨ k = w ∨ k = s then .error .invalidArgument
  else .ok (conditionalCommittorsVec msm s k w qfwd Nmat)

lemma mem_transientList (s k w i : Fin n) :
    i ∈ transientList s k w ↔ ¬ (i = s ∨ i = k ∨ i = w) := by
  simp [transientList, List.mem_filter, List.mem_finRange]

lemma transientList_nodup (s k w : Fin n) : (transientList s k w).Nodup :=
  (List.nodup_finRange n).filter _

lemma permList_nodup (s k w : Fin n) (h1 : s ≠ k) (h2 : s ≠ w) (h3 : k ≠ w) :
    (permList s k w).Nodup := by
  rw [permList, List.nodup_append]
  refine ⟨transientList_nodup s k w, by simp [h1, h2, h3], ?_⟩
  intro a ha hb
  rw [mem_transientList] at ha
  simp only [List.mem_cons, List.mem_singleton] at hb
  exact ha (by tauto)

lemma permList_toFinset (s k w : Fin n) :
    (permList s k w).toFinset = Finset.univ := by
  ext i
  simp only [Finset.mem_univ, iff_true, List.mem_toFinset, permList,
    List.mem_append, mem_transientList, List.mem_cons, List.mem_singleton]
  tauto

lemma permList_length (s k w : Fin n) (h1 : s ≠ k) (h2 : s ≠ w) (h3 : k ≠ w) :
    (permList s k w).length = n := by
  have h := List.toFinset_card_of_nodup (permList_nodup s k w h1 h2 h3)
  rw [permList_toFinset] at h
  simpa [Finset.card_univ] using h.symm

lemma transientList_length (s k w : Fin n) (h1 : s ≠ k) (h2 : s ≠ w) (h3 : k ≠ w) :
    (transientList s k w).length = n - 3 := by
  have h := permList_length s k w h1 h2 h3
  rw [permList, List.length_append] at h
  simp only [List.length_cons, List.length_nil] at h
  omega

lemma posOf_append_of_not_mem {α : Type} [DecidableEq α] (x : α) (l₂ : List α) :
    ∀ l₁ : List α, x ∉ l₁ → posOf x (l₁ ++ l₂) = l₁.length + posOf x l₂ := by
  intro l₁
  induction l₁ with
  | nil => intro; simp [posOf]
  | cons a t ih =>
    intro hx
    have hax : a ≠ x := fun h => hx (h ▸ List.mem_cons_self a t)
    have hxt : x ∉ t := fun h => hx (List.mem_cons_of_mem a h)
    simp only [List.cons_append, posOf, hax, if_false, List.length_cons,
      List.append_eq]
    rw [ih hxt]
    omega

lemma posOf_getD {α : Type} [DecidableEq α] :
    ∀ (l : List α), l.Nodup → ∀ p : ℕ, p < l.length → ∀ d : α,
      posOf (l.getD p d) l = p := by
  intro l
  induction l with
  | nil => intro _ p hp; simp at hp
  | cons a t ih =>
    intro hnd p hp d
    rcases p with _ | p
    · simp [posOf, List.getD]
    · have hpt : p < t.length := by simpa using hp
      have hx : t.getD p d ∈ t := by
        rw [List.getD_eq_getElem t d hpt]
        exact List.getElem_mem hpt
      have hax : a ≠ t.getD p d := by
        intro h
        exact (List.nodup_cons.mp hnd).1 (h ▸ hx)
      have := ih (List.nodup_cons.mp hnd).2 p hpt d
      simp only [List.getD_cons_succ, posOf, hax, if_false, this]

lemma posOf_source (s k w : Fin n) (h1 : s ≠ k) (h2 : s ≠ w) (h3 : k ≠ w) :
    posOf s (permList s k w) = n - 3 := by
  have hs : s ∉ transientList s k w := by
    rw [mem_transientList]; tauto
  rw [permList, posOf_append_of_not_mem s _ _ hs,
    transientList_length s k w h1 h2 h3]
  simp [posOf]

lemma posOf_sink (s k w : Fin n) (h1 : s ≠ k) (h2 : s ≠ w) (h3 : k ≠ w) :
    posOf k (permList s k w) = n - 3 + 1 := by
  have hk : k ∉ transientList s k w := by
    rw [mem_transientList]; tauto
  rw [permList, posOf_append_of_not_mem k _ _ hk,
    transientList_length s k w h1 h2 h3]
  simp [posOf, h1]

lemma posOf_waypoint (s k w : Fin n) (h1 : s ≠ k) (h2 : s ≠ w) (h3 : k ≠ w) :
    posOf w (permList s k w) = n - 3 + 2 := by
  have hw : w ∉ transientList s k w := by
    rw [mem_transientList]; tauto
  rw [permList, posOf_append_of_not_mem w _ _ hw,
    transientList_length s k w h1 h2 h3]
  have e2 : s ≠ w := h2
  have e3 : k ≠ w := h3
  simp [posOf, fun h => e2 h, fun h => e3 h]

lemma bVal_at_source (msm : MarkovStateModel n) (s k w : Fin n)
    (Nmat : Matrix (Fin (n - 3)) (Fin (n - 3)) ℚ) :
    bVal msm s k w Nmat (n - 3) = 0 := by
  simp [bVal]

lemma bVal_at_sink (msm : MarkovStateModel n) (s k w : Fin n)
    (Nmat : Matrix (Fin (n - 3)) (Fin (n - 3)) ℚ) :
    bVal msm s k w Nmat (n - 3 + 1) = 0 := by
  have hlt : ¬ (n - 3 + 1 < n - 3) := by omega
  have he : ¬ (n - 3 + 1 = n - 3) := by omega
  simp [bVal, hlt, he]

lemma bVal_at_waypoint (msm : MarkovStateModel n) (s k w : Fin n)
    (Nmat : Matrix (Fin (n - 3)) (Fin (n - 3)) ℚ) :
    bVal msm s k w Nmat (n - 3 + 2) = 1 := by
  have hlt : ¬ (n - 3 + 2 < n - 3) := by omega
  have he : ¬ (n - 3 + 2 = n - 3) := by omega
  have he1 : ¬ (n - 3 + 2 = n - 3 + 1) := by omega
  simp [bVal, hlt, he, he1]

lemma conditionalCommittors_ok (msm : MarkovStateModel n) (s k w : Fin n)
    (qfwd : Fin n → ℚ) (Nmat : Matrix (Fin (n - 3)) (Fin (n - 3)) ℚ)
    (c : Fin n → ℚ) (h1 : s ≠ k) (h2 : s ≠ w) (h3 : k ≠ w)
    (hc : conditionalCommittors msm s k w qfwd Nmat = .ok c) :
    c = conditionalCommittorsVec msm s k w qfwd Nmat := by
  have hguard : ¬ (s = w ∨ k = w ∨ k = s) := by
    push_neg
    exact ⟨h2, h3, fun h => h1 h.symm⟩
  rw [conditionalCommittors, if_neg hguard] at hc
  exact (Except.ok.inj hc).symm

/-- If the committor solve succeeded (its matrix has a left inverse), all
solutions of the committor system agree. -/
lemma committors_solution_unique (msm : MarkovStateModel n)
    (sources sinks : List (Fin n)) (q q' : Fin n → ℚ)
    (Linv : Matrix (Fin n) (Fin n) ℚ)
    (hinv : Linv * committorsLhs msm sources sinks = 1)
    (hq : (committorsLhs msm sources sinks).mulVec q = committorsRhs msm sources sinks)
    (hq' : (committorsLhs msm sources sinks).mulVec q' = committorsRhs msm sources sinks) :
    q = q' := by
  have e1 : Linv.mulVec ((committorsLhs msm sources sinks).mulVec q)
      = Linv.mulVec ((committorsLhs msm sources sinks).mulVec q') := by
    rw [hq, hq']
  rwa [Matrix.mulVec_mulVec, Matrix.mulVec_mulVec, hinv, Matrix.one_mulVec,
    Matrix.one_mulVec] at e1

/-- C3.  Whenever two of source, sink, waypoint coincide,
`conditional_committors` raises `InvalidArgumentError` (the `ValueError`
of the code), and it does so before any linear-algebra computation: the
error is returned for arbitrary solver oracles `qfwd`, `Nmat`, and no
partial result is produced. -/
theorem conditional_committors_distinct_guard (msm : MarkovStateModel n)
    (s k w : Fin n) (qfwd : Fin n → ℚ)
    (Nmat : Matrix (Fin (n - 3)) (Fin (n - 3)) ℚ)
    (h : s = w ∨ k = w ∨ k = s) :
    conditionalCommittors msm s k w qfwd Nmat = .error .invalidArgument := by
  rw [conditionalCommittors, if_pos h]

/-- Witness for C3 with `source = waypoint = 0` on the 3-state chain. -/
theorem conditional_committors_distinct_guard_witness :
    conditionalCommittors msm3 0 1 0 (fun _ => 0) 1 =
      .error .invalidArgument :=
  conditional_committors_distinct_guard msm3 0 1 0 (fun _ => 0) 1 (Or.inl rfl)

/-- C5.  For pairwise-distinct indices, when both dense solves succeed,
the conditional-committor value at the waypoint equals the waypoint's
unconditioned forward committor (the value an independent
`committors([source], [sink], chain)` call returns there). -/
theorem conditional_committors_waypoint_value (msm : MarkovStateModel n)
    (s k w : Fin n) (qfwd q' : Fin n → ℚ)
    (Nmat : Matrix (Fin (n - 3)) (Fin (n - 3)) ℚ)
    (Linv : Matrix (Fin n) (Fin n) ℚ) (c : Fin n → ℚ)
    (h1 : s ≠ k) (h2 : s ≠ w) (h3 : k ≠ w)
    (hq : (committorsLhs msm [s] [k]).mulVec qfwd = committorsRhs msm [s] [k])
    (hq' : (committorsLhs msm [s] [k]).mulVec q' = committorsRhs msm [s] [k])
    (hinv : Linv * committorsLhs msm [s] [k] = 1)
    (hN : Nmat * (1 - Pblock msm s k w) = 1)
    (hc : conditionalCommittors msm s k w qfwd Nmat = .ok c) :
    c w = q' w := by
  have hcv := conditionalCommittors_ok msm s k w qfwd Nmat c h1 h2 h3 hc
  have hqq : qfwd = q' :=
    committors_solution_unique msm [s] [k] qfwd q' Linv hinv hq hq'
  rw [hcv, conditionalCommittorsVec, posOf_waypoint s k w h1 h2 h3,
    bVal_at_waypoint, one_mul, hqq]

/-- Witness for C5 on the 3-state gambler's-ruin chain with
`source = 0`, `sink = 2`, `waypoint = 1`. -/
theorem conditional_committors_waypoint_value_witness :
    conditionalCommittorsVec msm3 0 2 1 ![0, 1/2, 1] 1 1 =
      (![0, 1/2, 1] : Fin 3 → ℚ) 1 := by
  exact conditional_committors_waypoint_value msm3 0 2 1 ![0, 1/2, 1] ![0, 1/2, 1]
    1 !![1, 0, 0; 0, 5/4, 0; 0, 0, 1]
    (conditionalCommittorsVec msm3 0 2 1 ![0, 1/2, 1] 1)
    (by decide) (by decide) (by decide)
    (by with_unfolding_all decide) (by with_unfolding_all decide)
    (by with_unfolding_all decide) (by decide)
    (by rw [conditionalCommittors, if_neg (by decide)])

/-- C6.  For pairwise-distinct indices, when both dense solves succeed,
the vector returned by `conditional_committors` is exactly zero at the
source and at the sink (positions `n-3` and `n-2` of the appended
`[0, 0, 1]` block). -/
theorem conditional_committors_endpoints_zero (msm : MarkovStateModel n)
    (s k w : Fin n) (qfwd : Fin n → ℚ)
    (Nmat : Matrix (Fin (n - 3)) (Fin (n - 3)) ℚ) (c : Fin n → ℚ)
    (h1 : s ≠ k) (h2 : s ≠ w) (h3 : k ≠ w)
    (hq : (committorsLhs msm [s] [k]).mulVec qfwd = committorsRhs msm [s] [k])
    (hN : Nmat * (1 - Pblock msm s k w) = 1)
    (hc : conditionalCommittors msm s k w qfwd Nmat = .ok c) :
    c s = 0 ∧ c k = 0 := by
  have hcv := conditionalCommittors_ok msm s k w qfwd Nmat c h1 h2 h3 hc
  constructor
  · rw [hcv, conditionalCommittorsVec, posOf_source s k w h1 h2 h3,
      bVal_at_source, zero_mul]
  · rw [hcv, conditionalCommittorsVec, posOf_sink s k w h1 h2 h3,
      bVal_at_sink, zero_mul]

/-- Witness for C6 on the 3-state gambler's-ruin chain. -/
theorem conditional_committors_endpoints_zero_witness :
    conditionalCommittorsVec msm3 0 2 1 ![0, 1/2, 1] 1 0 = 0 ∧
    conditionalCommittorsVec msm3 0 2 1 ![0, 1/2, 1] 1 2 = 0 := by
  exact conditional_committors_endpoints_zero msm3 0 2 1 ![0, 1/2, 1] 1
    (conditionalCommittorsVec msm3 0 2 1 ![0, 1/2, 1] 1)
    (by decide) (by decide) (by decide)
    (by with_unfolding_all decide) (by decide)
    (by rw [conditionalCommittors, if_neg (by decide)])

/-- C7.  The permutation of `conditional_committors`: it is the strictly
increasing enumeration of the non-boundary states followed by
`[source, sink, waypoint]` in that order, it is a bijection on the state
space (nodup, length `n_states`), the permuted matrix reads the original
matrix through it symmetrically in rows and columns, and the returned
vector is index-aligned with the original state ids - its value at the
original id sitting at permuted position `p` is the permuted vector's
entry at `p` (inverse permutation via `np.argsort`). -/
theorem conditional_committors_permutation (msm : MarkovStateModel n)
    (s k w : Fin n) (qfwd : Fin n → ℚ)
    (Nmat : Matrix (Fin (n - 3)) (Fin (n - 3)) ℚ)
    (h1 : s ≠ k) (h2 : s ≠ w) (h3 : k ≠ w) :
    permList s k w = transientList s k w ++ [s, k, w] ∧
    List.Pairwise (· < ·) (transientList s k w) ∧
    (∀ i : Fin n, i ∈ transientList s k w ↔ ¬ (i = s ∨ i = k ∨ i = w)) ∧
    (permList s k w).Nodup ∧
    (permList s k w).length = n ∧
    (∀ p q : ℕ, permutedT msm s k w p q =
      msm.transmat_ ((permList s k w).getD p s) ((permList s k w).getD q s)) ∧
    (∀ c : Fin n → ℚ, conditionalCommittors msm s k w qfwd Nmat = .ok c →
      ∀ p : ℕ, p < n →
        c ((permList s k w).getD p s) = bVal msm s k w Nmat p * qfwd w) := by
  refine ⟨rfl, ?_, fun i => mem_transientList s k w i,
    permList_nodup s k w h1 h2 h3, permList_length s k w h1 h2 h3,
    fun p q => rfl, ?_⟩
  · exact List.Pairwise.sublist (List.filter_sublist _) (List.pairwise_lt_finRange n)
  · intro c hc p hp
    rw [conditionalCommittors_ok msm s k w qfwd Nmat c h1 h2 h3 hc,
      conditionalCommittorsVec]
    have hlen : p < (permList s k w).length := by
      rw [permList_length s k w h1 h2 h3]; exact hp
    rw [posOf_getD (permList s k w) (permList_nodup s k w h1 h2 h3) p hlen s]

/-- Witness for C7 on the 3-state gambler's-ruin chain with
`source = 0`, `sink = 2`, `waypoint = 1`. -/
theorem conditional_committors_permutation_witness :
    permList (0 : Fin 3) 2 1 = transientList (0 : Fin 3) 2 1 ++ [0, 2, 1] ∧
    List.Pairwise (· < ·) (transientList (0 : Fin 3) 2 1) ∧
    (∀ i : Fin 3, i ∈ transientList (0 : Fin 3) 2 1 ↔ ¬ (i = 0 ∨ i = 2 ∨ i = 1)) ∧
    (permList (0 : Fin 3) 2 1).Nodup ∧
    (permList (0 : Fin 3) 2 1).length = 3 ∧
    (∀ p q : ℕ, permutedT msm3 0 2 1 p q =
      msm3.transmat_ ((permList (0 : Fin 3) 2 1).getD p 0)
        ((permList (0 : Fin 3) 2 1).getD q 0)) ∧
    (∀ c : Fin 3 → ℚ, conditionalCommittors msm3 0 2 1 ![0, 1/2, 1] 1 = .ok c →
      ∀ p : ℕ, p < 3 →
        c ((permList (0 : Fin 3) 2 1).getD p 0) =
          bVal msm3 0 2 1 1 p * (![0, 1/2, 1] : Fin 3 → ℚ) 1) :=
  conditional_committors_permutation msm3 0 2 1 ![0, 1/2, 1] 1
    (by decide) (by decide) (by decide)

end Mixtape
